import Mathlib

/-
Verification of the c-vector repository: a shallow embedding of the arena
allocator (`arena.c`, first part of the excerpt) and the dynamic array
(`vector.c`, second part of the excerpt), with theorems settling the
specification claims.

Modelling conventions:
* A byte buffer is modelled as a total function `Nat → Nat` giving the byte
  stored at every offset.  Offsets at or beyond the allocation are "memory
  outside the buffer"; they still have values, which lets out-of-bounds
  accesses of the C code be observed in the model.
* `malloc` returns uninitialized memory; an uninitialized byte is modelled as
  the fixed junk value 170 (0xAA).  `realloc` keeps the first
  `min(oldSize, newSize)` bytes and the rest of the new block is junk.
* `size_t` values are modelled as unbounded `Nat`.  The one place where the
  source's control flow depends on `size_t` wraparound — the bound check
  `pos + n - 1 < v->len` of `vec_remove_n`, which wraps when `pos + n == 0` —
  is modelled with an explicit `% 2^64`.
* Out parameters (`void *elem` that may be NULL) are modelled by returning an
  `Option (List Nat)`: `some bytes` is what the out buffer receives when it is
  supplied, `none` means the out buffer is left untouched.
* Pointers returned by the arena are modelled as `Nat` addresses; nodes get
  fresh addresses from a counter, `realloc` is modelled as always relocating
  (it "may move" the node), and `sizeof(ArenaNode)` is modelled as 8.
-/

/-- Model of one uninitialized byte: malloc'ed memory is filled with 0xAA. -/
def junk : Nat := 170

/-- Modulus of `size_t` (64-bit). -/
def sizeTMod : Nat := 2 ^ 64

/-- The `k` bytes of memory `m` starting at offset `off` (a `memcpy` out of
the buffer, or the byte sequence an observer reads). -/
def readRange (m : Nat → Nat) (off k : Nat) : List Nat :=
  (List.range k).map (fun i => m (off + i))

/-- `memcpy(m + off, src, src.length)`: overwrite the bytes at
`[off, off + src.length)` with `src`. -/
def writeRange (m : Nat → Nat) (off : Nat) (src : List Nat) : Nat → Nat :=
  fun i => if off ≤ i ∧ i < off + src.length then src.getD (i - off) 0 else m i

/-- `memmove(m + dst, m + src, k)`: overlap-safe move inside the same memory;
the destination range receives the bytes the source range held before the
call. -/
def moveRange (m : Nat → Nat) (dst src k : Nat) : Nat → Nat :=
  fun i => if dst ≤ i ∧ i < dst + k then m (src + (i - dst)) else m i

/-- `memset(m + off, 0, k)`. -/
def setRange (m : Nat → Nat) (off k : Nat) : Nat → Nat :=
  fun i => if off ≤ i ∧ i < off + k then 0 else m i

/-- `memcmp` on two byte sequences: sign of the first differing byte pair
(the C contract fixes only the sign; the model uses -1/0/1). -/
def memcmp : List Nat → List Nat → Int
  | [], [] => 0
  | [], _ :: _ => -1
  | _ :: _, [] => 1
  | a :: as, b :: bs => if a < b then -1 else if b < a then 1 else memcmp as bs

/-- The `Vec` struct of `vector.h` as used by `vector.c`: backing pointer
(modelled as the byte memory it points into), element byte size (stride),
length and capacity in elements. -/
structure Vec where
  mem : Nat → Nat
  size : Nat
  len : Nat
  cap : Nat

/-- `v_at`: byte offset of element `pos` (the pointer `v->ptr + pos * v->size`). -/
def v_at (v : Vec) (pos : Nat) : Nat := pos * v.size

/-- `v_set`: `memset(v_at(v, pos), 0, n * v->size)`. -/
def v_set (v : Vec) (pos n : Nat) : Vec :=
  { v with mem := setRange v.mem (v_at v pos) (n * v.size) }

/-- `v_cpy`: `memcpy(v_at(v, pos), source, n * v->size)` from a caller buffer. -/
def v_cpy (v : Vec) (pos : Nat) (source : List Nat) (n : Nat) : Vec :=
  { v with mem := writeRange v.mem (v_at v pos) (source.take (n * v.size)) }

/-- `v_cpy_to`: `memcpy(dest, v_at(v, pos), n * v->size)` — the bytes the
destination buffer receives. -/
def v_cpy_to (v : Vec) (pos n : Nat) : List Nat :=
  readRange v.mem (v_at v pos) (n * v.size)

/-- `v_move`: `memmove(v_at(v, pos), source, n * v->size)` where `source` is a
byte offset into the same buffer. -/
def v_move (v : Vec) (pos srcOff n : Nat) : Vec :=
  { v with mem := moveRange v.mem (v_at v pos) srcOff (n * v.size) }

/-- `v_cmp`: `memcmp(v_at(v, pos), ptr2, n * v->size)` where `ptr2` is a byte
offset into the same buffer. -/
def v_cmp (v : Vec) (pos off2 n : Nat) : Int :=
  memcmp (readRange v.mem (v_at v pos) (n * v.size)) (readRange v.mem off2 (n * v.size))

/-- `v_alloc`: fresh `malloc(n * v->size)` buffer (uninitialized), capacity `n`. -/
def v_alloc (v : Vec) (n : Nat) : Vec :=
  { v with mem := fun _ => junk, cap := n }

/-- `v_realloc`: `realloc` to `n * v->size` bytes; the first
`min(oldBytes, newBytes)` bytes are preserved, the rest is uninitialized. -/
def v_realloc (v : Vec) (n : Nat) : Vec :=
  { v with
    mem := fun i => if i < min (v.cap * v.size) (n * v.size) then v.mem i else junk,
    cap := n }

/-- `v_resize`: shrink reallocates exactly, growth doubles when possible and
is exact otherwise; an unallocated vector allocates `max(n, GROWTH_FACTOR)`. -/
def v_resize (v : Vec) (n : Nat) : Vec :=
  if 0 < v.cap then
    if n < v.cap ∨ v.cap * 2 < n then v_realloc v n
    else if v.cap < n then v_realloc v (v.cap * 2)
    else v
  else v_alloc v (if 2 < n then n else 2)

/-- `vec_new`: empty vector of elements of `size`, no allocation. -/
def vec_new (size : Nat) : Vec :=
  { mem := fun _ => junk, size := size, len := 0, cap := 0 }

/-- `vec_reserve`: reserve memory for at least `n` elements. -/
def vec_reserve (v : Vec) (n : Nat) : Vec :=
  if v.cap < n then v_resize v n else v

/-- `vec_new_with`: new vector of elements of `size` with capacity `n`. -/
def vec_new_with (size n : Nat) : Vec :=
  vec_reserve (vec_new size) n

/-- `vec_init`: the source calls `vec_new_with(v, n, size)` — the two
arguments are passed in swapped order — then zeroes `n` elements and sets the
length to `n`. -/
def vec_init (size n : Nat) : Vec :=
  let v := vec_new_with n size
  let v := v_set v 0 n
  { v with len := n }

/-- `vec_clear`: free the buffer and reset to the empty state. -/
def vec_clear (v : Vec) : Vec :=
  { v with mem := fun _ => junk, cap := 0, len := 0 }

/-- `vec_shrink_to_fit`: reallocate to exactly `len` slots when allocated. -/
def vec_shrink_to_fit (v : Vec) : Vec :=
  if 0 < v.cap then v_resize v v.len else v

/-- `vec_insert_n`: insert `n` elements (the byte sequence `elems`) starting
at position `pos`; `pos > len` is a silent no-op. -/
def vec_insert_n (v : Vec) (elems : List Nat) (n pos : Nat) : Vec :=
  if pos ≤ v.len then
    let v1 := vec_reserve v (v.len + n)
    let v2 := v_move v1 (pos + n) (v_at v1 pos) (v1.len - pos)
    let v3 := v_cpy v2 pos elems n
    { v3 with len := v3.len + n }
  else v

/-- `vec_insert`: insert one element at `pos`. -/
def vec_insert (v : Vec) (elem : List Nat) (pos : Nat) : Vec :=
  vec_insert_n v elem 1 pos

/-- `vec_push`: insert one element at the end. -/
def vec_push (v : Vec) (elem : List Nat) : Vec :=
  vec_insert v elem v.len

/-- `vec_from`: the source calls `vec_insert_n(v, arr, 0, n)` — an insertion
of `0` elements at position `n`. -/
def vec_from (size : Nat) (arr : List Nat) (n : Nat) : Vec :=
  vec_insert_n (vec_new size) arr 0 n

/-- `vec_pop`: remove the last element; the removed bytes are copied to the
out buffer when one is supplied. -/
def vec_pop (v : Vec) : Vec × Option (List Nat) :=
  if 0 < v.len then
    ({ v with len := v.len - 1 }, some (v_cpy_to v (v.len - 1) 1))
  else (v, none)

/-- `vec_remove_n`: remove `n` elements starting at `pos`.  The bound check is
the C expression `pos + n - 1 < v->len` evaluated in `size_t` arithmetic
(it wraps around when `pos + n == 0`). -/
def vec_remove_n (v : Vec) (pos n : Nat) : Vec × Option (List Nat) :=
  if (pos + n + (sizeTMod - 1)) % sizeTMod < v.len then
    let out := v_cpy_to v pos n
    let v1 := if pos + n < v.len then v_move v pos (v_at v (pos + n)) (v.len - (pos + n)) else v
    ({ v1 with len := v1.len - n }, some out)
  else (v, none)

/-- `vec_remove`: remove the element at `pos`. -/
def vec_remove (v : Vec) (pos : Nat) : Vec × Option (List Nat) :=
  vec_remove_n v pos 1

/-- `vec_get`: bounds-checked read of element `pos`; out of range leaves the
out buffer untouched (`none`). -/
def vec_get (v : Vec) (pos : Nat) : Option (List Nat) :=
  if pos < v.len then some (v_cpy_to v pos 1) else none

/-- `vec_set`: bounds-checked write of element `pos`; out of range is a
silent no-op. -/
def vec_set (v : Vec) (elem : List Nat) (pos : Nat) : Vec :=
  if pos < v.len then v_cpy v pos elem 1 else v

/-- `vec_len` accessor. -/
def vec_len (v : Vec) : Nat := v.len

/-- `vec_capacity` accessor. -/
def vec_capacity (v : Vec) : Nat := v.cap

/-- `vec_swap`: three-copy swap of elements `pos1` and `pos2` through the
caller-supplied scratch buffer (the scratch is fully overwritten before use,
so it does not appear in the model).  There is no bounds check. -/
def vec_swap (v : Vec) (pos1 pos2 : Nat) : Vec :=
  let tmp := v_cpy_to v pos1 1
  let v1 := v_cpy v pos1 (v_cpy_to v pos2 1) 1
  v_cpy v1 pos2 tmp 1

/-- Modelled from the spec: `vector.h` (declarations only, not in the
excerpt) defines the sort order constants; the spec says the direction is
"determined by the sign convention of `order`", so ascending is `+1`. -/
def VEC_SORT_ASC : Int := 1

/-- Modelled from the spec: descending sort order is the negative sign, `-1`. -/
def VEC_SORT_DESC : Int := -1

/-- Inner loop of `vec_sort`: `for (j = i + 1; j < len; j++)` — swap whenever
`v_cmp(v, i, v_at(v, j), 1) * order > 0`. -/
def sortInner (ord : Int) (len i : Nat) (v : Vec) (j : Nat) : Vec :=
  if j < len then
    sortInner ord len i
      (if 0 < v_cmp v i (v_at v j) 1 * ord then vec_swap v i j else v) (j + 1)
  else v
termination_by len - j
decreasing_by simp_wf; omega

/-- Outer loop of `vec_sort`: `for (i = 0; i < len; i++)`. -/
def sortOuter (ord : Int) (len : Nat) (v : Vec) (i : Nat) : Vec :=
  if i < len then sortOuter ord len (sortInner ord len i v (i + 1)) (i + 1) else v
termination_by len - i
decreasing_by simp_wf; omega

/-- `vec_sort`: pairwise comparison-and-swap sort over raw byte content. -/
def vec_sort (v : Vec) (ord : Int) : Vec :=
  sortOuter ord v.len v 0

/-- One arena allocation node: its address and the payload content placed
right after the link.  The payload pointer handed to the caller is
`addr + 8` (`sizeof(ArenaNode)` modelled as 8). -/
structure ArenaNode where
  addr : Nat
  payload : List Nat

/-- The arena: singly linked list of nodes (head first) plus the model's
fresh-address counter for `malloc`/`realloc`. -/
structure Arena where
  nodes : List ArenaNode
  nextAddr : Nat

/-- `arena_init`: empty arena (the address counter starts past NULL). -/
def arena_init : Arena :=
  { nodes := [], nextAddr := 8 }

/-- `arena_alloc`: link a fresh node at the head and return the payload
pointer `(char *)node + sizeof(ArenaNode)`. -/
def arena_alloc (a : Arena) (bytes : Nat) : Arena × Nat :=
  let node : ArenaNode := { addr := a.nextAddr, payload := List.replicate bytes junk }
  ({ nodes := node :: a.nodes, nextAddr := a.nextAddr + 8 + bytes }, a.nextAddr + 8)

/-- The `prev`/`curr` scan of `arena_realloc`: find the first node whose
address equals `needle`, returning the nodes before it, the node, and the
nodes after it. -/
def scanFind (needle : Nat) : List ArenaNode → Option (List ArenaNode × ArenaNode × List ArenaNode)
  | [] => none
  | c :: rest =>
    if c.addr = needle then some ([], c, rest)
    else
      match scanFind needle rest with
      | some (b, cur, aft) => some (c :: b, cur, aft)
      | none => none

/-- `arena_realloc`: locate the node owning `p` (`needle = p - sizeof(ArenaNode)`),
resize it (the resized node may move — modelled as relocating to a fresh
address — and keeps `min(oldSize, newSize)` bytes), relink it in the same
list position, and return `((char *)next) + sizeof(ArenaNode)` exactly as the
source does, where `next` is the resized node's successor (`NULL` = 0 when it
is the last node). -/
def arena_realloc (a : Arena) (bytes : Nat) (p : Nat) : Arena × Option Nat :=
  match a.nodes with
  | [] => (a, none)
  | _ :: _ =>
    match scanFind (p - 8) a.nodes with
    | none => (a, none)
    | some (before, curr, after) =>
      let moved : ArenaNode :=
        { addr := a.nextAddr,
          payload := curr.payload.take bytes ++ List.replicate (bytes - curr.payload.length) junk }
      ({ nodes := before ++ moved :: after, nextAddr := a.nextAddr + 8 + bytes },
       some ((match after with | [] => 0 | nx :: _ => nx.addr) + 8))

/-- `arena_free`: release every node and reset to the empty state. -/
def arena_free (a : Arena) : Arena :=
  { a with nodes := [] }

/-- The byte sequence of the valid elements, `buffer[0 .. len*stride)`. -/
def vecBytes (v : Vec) : List Nat :=
  readRange v.mem 0 (v.len * v.size)

/-- The byte content of element `p`. -/
def elemAt (v : Vec) (p : Nat) : List Nat :=
  readRange v.mem (p * v.size) v.size

/-- A concrete memory whose first bytes are the given list (junk beyond it),
used to build concrete vectors for witnesses. -/
def listMem (l : List Nat) : Nat → Nat :=
  fun i => l.getD i junk

/-- Concrete 3-element vector of stride 1 holding bytes 1, 2, 3. -/
def exVec : Vec :=
  { mem := listMem [1, 2, 3], size := 1, len := 3, cap := 3 }

/-- Concrete unsorted 3-element vector of stride 1. -/
def exVecU : Vec :=
  { mem := listMem [3, 1, 2], size := 1, len := 3, cap := 3 }

/-- Concrete arena holding one 4-byte allocation. -/
def exArena : Arena :=
  (arena_alloc arena_init 4).1

/-- The spec's concrete arena scenario: `allocate(16)` returning pointer A,
`allocate(32)` returning pointer B, then `reallocate(64, A)`. -/
def exRealloc : Arena × Option Nat :=
  let a1 := arena_alloc arena_init 16
  let a2 := arena_alloc a1.1 32
  arena_realloc a2.1 64 a1.2

/- ======================================================================== -/
/- Basic facts about the byte-range primitives                              -/
/- ======================================================================== -/

theorem readRange_length (m : Nat → Nat) (off k : Nat) :
    (readRange m off k).length = k := by
  simp [readRange]

theorem readRange_getD (m : Nat → Nat) (off k i d : Nat) (h : i < k) :
    (readRange m off k).getD i d = m (off + i) := by
  have hlen : i < (readRange m off k).length := by rw [readRange_length]; exact h
  rw [List.getD_eq_getElem _ _ hlen]
  simp [readRange]

theorem readRange_congr {m1 m2 : Nat → Nat} {off1 off2 k : Nat}
    (h : ∀ i, i < k → m1 (off1 + i) = m2 (off2 + i)) :
    readRange m1 off1 k = readRange m2 off2 k := by
  unfold readRange
  exact List.map_congr_left (fun a ha => h a (List.mem_range.mp ha))

theorem readRange_take (m : Nat → Nat) (off k : Nat) :
    (readRange m off k).take k = readRange m off k := by
  exact List.take_of_length_le (Nat.le_of_eq (readRange_length m off k))

theorem writeRange_apply (m : Nat → Nat) (off : Nat) (src : List Nat) (i : Nat) :
    writeRange m off src i =
      if off ≤ i ∧ i < off + src.length then src.getD (i - off) 0 else m i := rfl

theorem moveRange_apply (m : Nat → Nat) (dst src k i : Nat) :
    moveRange m dst src k i =
      if dst ≤ i ∧ i < dst + k then m (src + (i - dst)) else m i := rfl

/- ======================================================================== -/
/- Characterization of vec_reserve                                          -/
/- ======================================================================== -/

theorem vec_reserve_spec (v : Vec) (n : Nat) :
    (vec_reserve v n).size = v.size ∧ (vec_reserve v n).len = v.len ∧
    v.cap ≤ (vec_reserve v n).cap ∧ n ≤ (vec_reserve v n).cap ∧
    (v.len ≤ v.cap → ∀ i, i < v.len * v.size → (vec_reserve v n).mem i = v.mem i) := by
  unfold vec_reserve
  by_cases h1 : v.cap < n
  · rw [if_pos h1]
    unfold v_resize
    by_cases hc : 0 < v.cap
    · rw [if_pos hc]
      by_cases h2 : n < v.cap ∨ v.cap * 2 < n
      · -- exact reallocation to n
        rw [if_pos h2]
        unfold v_realloc
        refine ⟨rfl, rfl, by dsimp only; omega, by dsimp only; omega, ?_⟩
        intro hwf i hi
        dsimp only
        have hic : i < v.cap * v.size :=
          Nat.lt_of_lt_of_le hi (Nat.mul_le_mul_right _ hwf)
        have hin : i < n * v.size :=
          Nat.lt_of_lt_of_le hic (Nat.mul_le_mul_right _ (Nat.le_of_lt h1))
        rw [if_pos (lt_min hic hin)]
      · -- grow to cap * 2
        rw [if_neg h2, if_pos h1]
        unfold v_realloc
        refine ⟨rfl, rfl, by dsimp only; omega, by dsimp only; omega, ?_⟩
        intro hwf i hi
        dsimp only
        have hic : i < v.cap * v.size :=
          Nat.lt_of_lt_of_le hi (Nat.mul_le_mul_right _ hwf)
        have hin : i < v.cap * 2 * v.size :=
          Nat.lt_of_lt_of_le hic (Nat.mul_le_mul_right _ (by omega))
        rw [if_pos (lt_min hic hin)]
    · -- unallocated: allocate max(n, GROWTH_FACTOR)
      rw [if_neg hc]
      unfold v_alloc
      refine ⟨rfl, rfl, by dsimp only; omega, ?_, ?_⟩
      · dsimp only
        split <;> omega
      · intro hwf i hi
        have hl0 : v.len = 0 := by omega
        rw [hl0] at hi
        simp at hi
  · rw [if_neg h1]
    exact ⟨rfl, rfl, Nat.le_refl _, by omega, fun _ _ _ => rfl⟩

/-- C6: after `reserve(n)` the capacity is at least `n` and the length is
unchanged, and the new capacity follows the exact growth policy: nothing
changes when `n` fits the current capacity; an unallocated array allocates
`max(n, 2)`; otherwise the capacity doubles, unless `n` exceeds twice the old
capacity, in which case it becomes exactly `n`. -/
theorem C6_reserve_policy (v : Vec) (n : Nat) :
    n ≤ vec_capacity (vec_reserve v n) ∧
    vec_len (vec_reserve v n) = vec_len v ∧
    (n ≤ v.cap → vec_reserve v n = v) ∧
    (v.cap = 0 → 0 < n → vec_capacity (vec_reserve v n) = max n 2) ∧
    (0 < v.cap → 2 * v.cap < n → vec_capacity (vec_reserve v n) = n) ∧
    (0 < v.cap → v.cap < n → n ≤ 2 * v.cap → vec_capacity (vec_reserve v n) = 2 * v.cap) := by
  refine ⟨(vec_reserve_spec v n).2.2.2.1, (vec_reserve_spec v n).2.1, ?_, ?_, ?_, ?_⟩
  · intro h
    unfold vec_reserve
    rw [if_neg (by omega)]
  · intro h0 h1
    unfold vec_capacity vec_reserve v_resize v_realloc v_alloc
    split_ifs <;> (try dsimp only) <;> omega
  · intro h0 h1
    unfold vec_capacity vec_reserve v_resize v_realloc v_alloc
    split_ifs <;> (try dsimp only) <;> omega
  · intro h0 h1 h2
    unfold vec_capacity vec_reserve v_resize v_realloc v_alloc
    split_ifs <;> (try dsimp only) <;> omega

/- ======================================================================== -/
/- Characterization of vec_insert_n and vec_remove_n                        -/
/- ======================================================================== -/

theorem vec_insert_n_eq (v : Vec) (elems : List Nat) (n pos : Nat) (h : pos ≤ v.len) :
    vec_insert_n v elems n pos =
      { mem := writeRange
          (moveRange (vec_reserve v (v.len + n)).mem ((pos + n) * v.size) (pos * v.size)
            ((v.len - pos) * v.size))
          (pos * v.size) (elems.take (n * v.size)),
        size := v.size, len := v.len + n, cap := (vec_reserve v (v.len + n)).cap } := by
  obtain ⟨hs, hl, -, -, -⟩ := vec_reserve_spec v (v.len + n)
  unfold vec_insert_n v_move v_cpy v_at
  rw [if_pos h]
  dsimp only
  rw [hs, hl]

theorem vec_insert_n_spec (v : Vec) (elems : List Nat) (n pos : Nat)
    (hwf : v.len ≤ v.cap) (hpos : pos ≤ v.len) (he : elems.length = n * v.size) :
    (vec_insert_n v elems n pos).size = v.size ∧
    (vec_insert_n v elems n pos).len = v.len + n ∧
    v.len + n ≤ (vec_insert_n v elems n pos).cap ∧
    (∀ i, i < pos * v.size → (vec_insert_n v elems n pos).mem i = v.mem i) ∧
    (∀ k, k < n * v.size →
      (vec_insert_n v elems n pos).mem (pos * v.size + k) = elems.getD k 0) ∧
    (∀ k, k < (v.len - pos) * v.size →
      (vec_insert_n v elems n pos).mem ((pos + n) * v.size + k) = v.mem (pos * v.size + k)) := by
  obtain ⟨hs, hl, hc1, hc2, hmem⟩ := vec_reserve_spec v (v.len + n)
  rw [vec_insert_n_eq v elems n pos hpos]
  have hple : pos * v.size ≤ v.len * v.size := Nat.mul_le_mul_right _ hpos
  have hpn : (pos + n) * v.size = pos * v.size + n * v.size := Nat.add_mul pos n v.size
  have hsub : (v.len - pos) * v.size = v.len * v.size - pos * v.size := Nat.sub_mul _ _ _
  refine ⟨rfl, rfl, hc2, ?_, ?_, ?_⟩
  · intro i hi
    dsimp only
    rw [← he, List.take_length, writeRange_apply, if_neg (by omega),
      moveRange_apply, if_neg (by omega)]
    exact hmem hwf i (by omega)
  · intro k hk
    dsimp only
    rw [← he, List.take_length, writeRange_apply, if_pos (by omega),
      Nat.add_sub_cancel_left]
  · intro k hk
    dsimp only
    rw [← he, List.take_length, writeRange_apply, if_neg (by omega),
      moveRange_apply, if_pos (by omega), Nat.add_sub_cancel_left]
    exact hmem hwf _ (by omega)

theorem vec_remove_n_eq (v : Vec) (pos n : Nat) (hn : 1 ≤ n) (hle : pos + n ≤ v.len)
    (hM : v.len < sizeTMod) :
    vec_remove_n v pos n =
      (if pos + n < v.len then
        { mem := moveRange v.mem (pos * v.size) ((pos + n) * v.size)
            ((v.len - (pos + n)) * v.size),
          size := v.size, len := v.len - n, cap := v.cap }
       else { v with len := v.len - n },
       some (readRange v.mem (pos * v.size) (n * v.size))) := by
  have hMpos : 0 < sizeTMod := Nat.two_pow_pos 64
  have hg : (pos + n + (sizeTMod - 1)) % sizeTMod < v.len := by
    have h1 : pos + n + (sizeTMod - 1) = (pos + n - 1) + sizeTMod := by omega
    rw [h1, Nat.add_mod_right, Nat.mod_eq_of_lt (by omega)]
    omega
  unfold vec_remove_n v_cpy_to v_move v_at
  rw [if_pos hg]
  by_cases hc : pos + n < v.len
  · simp only [if_pos hc]
  · simp only [if_neg hc]

theorem vec_remove_n_spec (v : Vec) (pos n : Nat) (hn : 1 ≤ n) (hle : pos + n ≤ v.len)
    (hM : v.len < sizeTMod) :
    (vec_remove_n v pos n).2 = some (readRange v.mem (pos * v.size) (n * v.size)) ∧
    (vec_remove_n v pos n).1.len = v.len - n ∧
    (vec_remove_n v pos n).1.size = v.size ∧
    (vec_remove_n v pos n).1.cap = v.cap ∧
    (∀ i, i < pos * v.size → (vec_remove_n v pos n).1.mem i = v.mem i) ∧
    (∀ k, k < (v.len - (pos + n)) * v.size →
      (vec_remove_n v pos n).1.mem (pos * v.size + k) = v.mem ((pos + n) * v.size + k)) := by
  rw [vec_remove_n_eq v pos n hn hle hM]
  by_cases hc : pos + n < v.len
  · rw [if_pos hc]
    refine ⟨rfl, rfl, rfl, rfl, ?_, ?_⟩
    · intro i hi
      dsimp only
      rw [moveRange_apply, if_neg (by omega)]
    · intro k hk
      dsimp only
      rw [moveRange_apply, if_pos (by omega), Nat.add_sub_cancel_left]
  · rw [if_neg hc]
    refine ⟨rfl, rfl, rfl, rfl, fun i hi => rfl, ?_⟩
    intro k hk
    have h0 : v.len - (pos + n) = 0 := by omega
    rw [h0] at hk
    simp at hk

/-- C6 witness: a concrete allocated vector (capacity 3) reserved far beyond
twice its capacity gets exactly the requested capacity, keeping its length. -/
theorem C6_reserve_policy_witness :
    vec_capacity (vec_reserve exVec 7) = 7 ∧ vec_len (vec_reserve exVec 7) = vec_len exVec :=
  ⟨(C6_reserve_policy exVec 7).2.2.2.2.1 (by decide) (by decide),
   (C6_reserve_policy exVec 7).2.1⟩

/- ======================================================================== -/
/- Further helpers                                                          -/
/- ======================================================================== -/

theorem list_eq_of_getD {l1 l2 : List Nat} (hlen : l1.length = l2.length)
    (h : ∀ j, j < l1.length → l1.getD j 0 = l2.getD j 0) : l1 = l2 := by
  apply List.ext_getElem hlen
  intro j h1 h2
  have hj := h j h1
  rwa [List.getD_eq_getElem _ _ h1, List.getD_eq_getElem _ _ h2] at hj

theorem scanFind_eq_none (needle : Nat) (l : List ArenaNode)
    (h : ∀ nd ∈ l, nd.addr ≠ needle) : scanFind needle l = none := by
  induction l with
  | nil => rfl
  | cons c rest ih =>
    unfold scanFind
    rw [if_neg (h c (by simp)), ih (fun nd hnd => h nd (by simp [hnd]))]

/- ======================================================================== -/
/- Claims C1 - C5, C7, C8                                                   -/
/- ======================================================================== -/

/-- C1: the claim that `vec_from(stride, arr, n)` yields length `n` with the
`n` source elements copied fails on the code: `vec_from` passes the arguments
to `vec_insert_n` in the wrong order (`vec_insert_n(v, arr, 0, n)`), inserting
zero elements at position `n`, which for `n = 1` is a silent no-op on the
empty vector — the result has length 0, not 1. -/
theorem C1_createFrom_bug :
    vec_len (vec_from 1 [7] 1) = 0 ∧ vec_len (vec_from 1 [7] 1) ≠ 1 := by
  decide

/-- C2: the claim that `vec_init(s, n)` yields stride `s` fails on the code:
`vec_init` calls `vec_new_with(v, n, size)` with swapped arguments, so for
`vec_init(4, 3)` the stride stored in the vector is 3, not 4. -/
theorem C2_createZeroed_bug :
    (vec_init 4 3).size = 3 ∧ (vec_init 4 3).size ≠ 4 := by
  decide

/-- C4: the claim that every constructor establishes `0 ≤ length ≤ capacity`
fails on the code: because of the swapped arguments in `vec_init`,
`vec_init(2, 5)` reserves capacity for 2 elements (`max(size, 2)`) yet sets
the length to 5, so `length > capacity`. -/
theorem C4_invariant_bug :
    vec_len (vec_init 2 5) = 5 ∧ vec_capacity (vec_init 2 5) = 2 ∧
    ¬ vec_len (vec_init 2 5) ≤ vec_capacity (vec_init 2 5) := by
  decide

/-- C3: the claim that `arena_realloc` returns the payload pointer of the
resized node fails on the code: in the spec's own scenario (allocate 16,
allocate 32, reallocate the first to 64) the source returns
`((char *)next) + sizeof(ArenaNode)` where `next` is the resized node's
successor — here NULL, so the returned pointer is 8, which is not the payload
pointer of any node of the arena (the resized node's payload pointer is 80). -/
theorem C3_realloc_bug :
    exRealloc.2 = some 8 ∧
    exRealloc.1.nodes.map (fun nd => nd.addr + 8) = [40, 80] ∧
    ∀ q ∈ exRealloc.1.nodes.map (fun nd => nd.addr + 8), q ≠ 8 := by
  decide

/-- C5: every operation given an invalid argument is a silent no-op leaving
the state exactly unchanged: `vec_insert_n` with `pos > len`, `vec_remove_n`
with `pos + n - 1 ≥ len` (the bound evaluated as the C code does, assuming
`pos + n` does not overflow `size_t`), `vec_get`/`vec_set` with `pos ≥ len`,
`vec_pop` on an empty vector, and `arena_realloc` on an empty arena or with a
pointer matching no node, which moreover returns an absent result. -/
theorem C5_invalid_noop :
    (∀ (v : Vec) (elems : List Nat) (n pos : Nat), v.len < pos →
      vec_insert_n v elems n pos = v) ∧
    (∀ (v : Vec) (pos n : Nat), pos + n ≤ sizeTMod → v.len ≤ pos + n - 1 →
      vec_remove_n v pos n = (v, none)) ∧
    (∀ (v : Vec) (pos : Nat), v.len ≤ pos → vec_get v pos = none) ∧
    (∀ (v : Vec) (elem : List Nat) (pos : Nat), v.len ≤ pos → vec_set v elem pos = v) ∧
    (∀ v : Vec, v.len = 0 → vec_pop v = (v, none)) ∧
    (∀ (a : Arena) (bytes p : Nat), a.nodes = [] → arena_realloc a bytes p = (a, none)) ∧
    (∀ (a : Arena) (bytes p : Nat), 8 ≤ p → (∀ nd ∈ a.nodes, nd.addr + 8 ≠ p) →
      arena_realloc a bytes p = (a, none)) := by
  have hMpos : 0 < sizeTMod := Nat.two_pow_pos 64
  refine ⟨?_, ?_, ?_, ?_, ?_, ?_, ?_⟩
  · intro v elems n pos h
    unfold vec_insert_n
    rw [if_neg (by omega)]
  · intro v pos n h1 h2
    have hne : ¬ (pos + n + (sizeTMod - 1)) % sizeTMod < v.len := by
      by_cases h0 : pos + n = 0
      · rw [h0, Nat.zero_add, Nat.mod_eq_of_lt (by omega)]
        omega
      · rw [show pos + n + (sizeTMod - 1) = pos + n - 1 + sizeTMod from by omega,
          Nat.add_mod_right, Nat.mod_eq_of_lt (by omega)]
        omega
    unfold vec_remove_n
    rw [if_neg hne]
  · intro v pos h
    unfold vec_get
    rw [if_neg (by omega)]
  · intro v elem pos h
    unfold vec_set
    rw [if_neg (by omega)]
  · intro v h
    unfold vec_pop
    rw [if_neg (by omega)]
  · intro a bytes p h
    obtain ⟨nodes, nx⟩ := a
    dsimp only at h
    subst h
    rfl
  · intro a bytes p hp hnone
    have hscan : scanFind (p - 8) a.nodes = none :=
      scanFind_eq_none _ _ (fun nd hnd => by have := hnone nd hnd; omega)
    obtain ⟨nodes, nx⟩ := a
    cases nodes with
    | nil => rfl
    | cons c rest =>
      unfold arena_realloc
      dsimp only at hscan ⊢
      rw [hscan]

/-- C5 witness: concrete invalid calls — insertion past the end, removal past
the end, out-of-range get and set, pop of an empty vector, reallocation in an
empty arena and with an unmatched pointer — all leave the state unchanged. -/
theorem C5_invalid_noop_witness :
    vec_insert_n exVec [9] 1 5 = exVec ∧
    vec_remove_n exVec 7 2 = (exVec, none) ∧
    vec_get exVec 9 = none ∧
    vec_set exVec [9] 9 = exVec ∧
    vec_pop (vec_new 4) = (vec_new 4, none) ∧
    arena_realloc arena_init 16 24 = (arena_init, none) ∧
    arena_realloc exArena 16 99 = (exArena, none) :=
  ⟨C5_invalid_noop.1 exVec [9] 1 5 (by decide),
   C5_invalid_noop.2.1 exVec 7 2 (by decide) (by decide),
   C5_invalid_noop.2.2.1 exVec 9 (by decide),
   C5_invalid_noop.2.2.2.1 exVec [9] 9 (by decide),
   C5_invalid_noop.2.2.2.2.1 (vec_new 4) (by decide),
   C5_invalid_noop.2.2.2.2.2.1 arena_init 16 24 rfl,
   C5_invalid_noop.2.2.2.2.2.2 exArena 16 99 (by decide) (by decide)⟩

/-- C7: for `pos ≤ len`, `n ≥ 1` and an `n`-element source buffer,
`insertAt(elems, n, pos)` followed by `removeAt(pos, n, out)` restores the
original element sequence and length, and the out buffer receives exactly the
inserted elements. -/
theorem C7_insert_remove (v : Vec) (elems : List Nat) (n pos : Nat)
    (hwf : v.len ≤ v.cap) (hpos : pos ≤ v.len) (hn : 1 ≤ n)
    (he : elems.length = n * v.size) (hM : v.len + n < sizeTMod) :
    vec_len (vec_remove_n (vec_insert_n v elems n pos) pos n).1 = vec_len v ∧
    vecBytes (vec_remove_n (vec_insert_n v elems n pos) pos n).1 = vecBytes v ∧
    (vec_remove_n (vec_insert_n v elems n pos) pos n).2 = some elems := by
  obtain ⟨Is, Il, Ic, I4, I5, I6⟩ := vec_insert_n_spec v elems n pos hwf hpos he
  have hle : pos + n ≤ (vec_insert_n v elems n pos).len := by omega
  have hMw : (vec_insert_n v elems n pos).len < sizeTMod := by omega
  obtain ⟨R2, Rl, Rs, Rc, R5, R6⟩ := vec_remove_n_spec (vec_insert_n v elems n pos) pos n hn hle hMw
  rw [Is] at R2 R5 R6 Rs
  have hwl : (vec_insert_n v elems n pos).len - (pos + n) = v.len - pos := by omega
  rw [hwl] at R6
  have hrl : (vec_remove_n (vec_insert_n v elems n pos) pos n).1.len = v.len := by omega
  have hple : pos * v.size ≤ v.len * v.size := Nat.mul_le_mul_right _ hpos
  have hpn : (pos + n) * v.size = pos * v.size + n * v.size := Nat.add_mul pos n v.size
  have hsub : (v.len - pos) * v.size = v.len * v.size - pos * v.size := Nat.sub_mul _ _ _
  refine ⟨hrl, ?_, ?_⟩
  · unfold vecBytes
    rw [hrl, Rs]
    apply readRange_congr
    intro i hi
    rw [Nat.zero_add]
    by_cases hip : i < pos * v.size
    · rw [R5 i hip, I4 i hip]
    · have hk : i = pos * v.size + (i - pos * v.size) := by omega
      have hk2 : i - pos * v.size < (v.len - pos) * v.size := by omega
      rw [hk, R6 _ hk2, I6 _ hk2]
  · rw [R2]
    congr 1
    apply list_eq_of_getD
    · rw [readRange_length, he]
    · intro j hj
      rw [readRange_length] at hj
      rw [readRange_getD _ _ _ _ _ hj, I5 j hj]

/-- C7 witness: on a concrete 3-byte vector of stride 1, inserting one
element at position 1 and removing it again restores the sequence and length
and returns the inserted element. -/
theorem C7_insert_remove_witness :
    vec_len (vec_remove_n (vec_insert_n exVec [7] 1 1) 1 1).1 = vec_len exVec ∧
    vecBytes (vec_remove_n (vec_insert_n exVec [7] 1 1) 1 1).1 = vecBytes exVec ∧
    (vec_remove_n (vec_insert_n exVec [7] 1 1) 1 1).2 = some [7] :=
  C7_insert_remove exVec [7] 1 1 (by decide) (by decide) (by decide) (by decide) (by decide)

/-- C8: `push(e)` followed by `pop(out)` yields `out = e`, restores the
length, and leaves the pre-existing elements unchanged. -/
theorem C8_push_pop (v : Vec) (e : List Nat) (hwf : v.len ≤ v.cap)
    (he : e.length = v.size) :
    (vec_pop (vec_push v e)).2 = some e ∧
    vec_len (vec_pop (vec_push v e)).1 = vec_len v ∧
    vecBytes (vec_pop (vec_push v e)).1 = vecBytes v := by
  have he1 : e.length = 1 * v.size := by rw [Nat.one_mul]; exact he
  obtain ⟨Is, Il, Ic, I4, I5, I6⟩ := vec_insert_n_spec v e 1 v.len hwf (Nat.le_refl _) he1
  have hpush : vec_push v e = vec_insert_n v e 1 v.len := rfl
  rw [hpush]
  unfold vec_pop
  rw [if_pos (by omega)]
  refine ⟨?_, ?_, ?_⟩
  · dsimp only
    congr 1
    unfold v_cpy_to v_at
    rw [Is, Il, Nat.add_sub_cancel]
    apply list_eq_of_getD
    · rw [readRange_length, he1]
    · intro j hj
      rw [readRange_length] at hj
      rw [readRange_getD _ _ _ _ _ hj, I5 j hj]
  · dsimp only [vec_len]
    omega
  · unfold vecBytes
    dsimp only
    rw [Is, Il, Nat.add_sub_cancel]
    apply readRange_congr
    intro i hi
    rw [Nat.zero_add]
    exact I4 i hi

/-- C8 witness: pushing the byte 9 onto a concrete 3-byte vector and popping
returns 9 and restores the vector. -/
theorem C8_push_pop_witness :
    (vec_pop (vec_push exVec [9])).2 = some [9] ∧
    vec_len (vec_pop (vec_push exVec [9])).1 = vec_len exVec ∧
    vecBytes (vec_pop (vec_push exVec [9])).1 = vecBytes exVec :=
  C8_push_pop exVec [9] (by decide) (by decide)

/- ======================================================================== -/
/- Characterization of vec_swap, claim C10                                  -/
/- ======================================================================== -/

theorem vec_swap_eq (v : Vec) (p1 p2 : Nat) :
    vec_swap v p1 p2 =
      { mem := writeRange
          (writeRange v.mem (p1 * v.size) (readRange v.mem (p2 * v.size) (1 * v.size)))
          (p2 * v.size) (readRange v.mem (p1 * v.size) (1 * v.size)),
        size := v.size, len := v.len, cap := v.cap } := by
  unfold vec_swap v_cpy v_cpy_to v_at
  dsimp only
  rw [readRange_take, readRange_take]

theorem vec_swap_mem (v : Vec) (p1 p2 i : Nat) :
    (vec_swap v p1 p2).mem i =
      if p2 * v.size ≤ i ∧ i < p2 * v.size + v.size then
        v.mem (p1 * v.size + (i - p2 * v.size))
      else if p1 * v.size ≤ i ∧ i < p1 * v.size + v.size then
        v.mem (p2 * v.size + (i - p1 * v.size))
      else v.mem i := by
  rw [vec_swap_eq]
  dsimp only
  rw [writeRange_apply, readRange_length, Nat.one_mul]
  by_cases h2 : p2 * v.size ≤ i ∧ i < p2 * v.size + v.size
  · rw [if_pos h2, if_pos h2,
      readRange_getD v.mem (p1 * v.size) v.size (i - p2 * v.size) 0 (by omega)]
  · rw [if_neg h2, if_neg h2, writeRange_apply, readRange_length]
    by_cases h1 : p1 * v.size ≤ i ∧ i < p1 * v.size + v.size
    · rw [if_pos h1, if_pos h1,
        readRange_getD v.mem (p2 * v.size) v.size (i - p1 * v.size) 0 (by omega)]
    · rw [if_neg h1, if_neg h1]

theorem elem_range_disjoint {p q s i : Nat} (hne : p ≠ q) (h1 : p * s ≤ i)
    (h2 : i < p * s + s) : ¬ (q * s ≤ i ∧ i < q * s + s) := by
  rintro ⟨hq1, hq2⟩
  rcases Nat.lt_or_ge p q with h | h
  · have hps : p * s + s ≤ q * s := by
      have hm := Nat.mul_le_mul_right s (Nat.succ_le_of_lt h)
      rwa [Nat.succ_mul] at hm
    omega
  · have hqp : q < p := by omega
    have hps : q * s + s ≤ p * s := by
      have hm := Nat.mul_le_mul_right s (Nat.succ_le_of_lt hqp)
      rwa [Nat.succ_mul] at hm
    omega

theorem elemAt_swap_right (v : Vec) (p1 p2 : Nat) :
    elemAt (vec_swap v p1 p2) p2 = elemAt v p1 := by
  have hs : (vec_swap v p1 p2).size = v.size := rfl
  unfold elemAt
  rw [hs]
  apply readRange_congr
  intro k hk
  rw [vec_swap_mem, if_pos ⟨by omega, by omega⟩, Nat.add_sub_cancel_left]

theorem elemAt_swap_left (v : Vec) (p1 p2 : Nat) (hne : p1 ≠ p2) :
    elemAt (vec_swap v p1 p2) p1 = elemAt v p2 := by
  have hs : (vec_swap v p1 p2).size = v.size := rfl
  unfold elemAt
  rw [hs]
  apply readRange_congr
  intro k hk
  rw [vec_swap_mem,
    if_neg (elem_range_disjoint hne (by omega) (by omega)),
    if_pos ⟨by omega, by omega⟩, Nat.add_sub_cancel_left]

theorem elemAt_swap_other (v : Vec) (p1 p2 q : Nat) (h1 : q ≠ p1) (h2 : q ≠ p2) :
    elemAt (vec_swap v p1 p2) q = elemAt v q := by
  have hs : (vec_swap v p1 p2).size = v.size := rfl
  unfold elemAt
  rw [hs]
  apply readRange_congr
  intro k hk
  rw [vec_swap_mem,
    if_neg (elem_range_disjoint h2 (by omega) (by omega)),
    if_neg (elem_range_disjoint h1 (by omega) (by omega))]

/-- C10: `vec_swap` performs no bounds check.  For `pos1, pos2 < len` it
exchanges exactly those two elements, leaving every other element, the
length, stride and capacity unchanged.  When a position is at or beyond
`len` the call still reads and writes: the byte range it writes at `pos2`
receives the bytes read at `pos1` (and, for distinct positions, vice versa)
whether or not those ranges lie inside the valid region, bytes outside both
element ranges are untouched, and a position `pos2 ≥ len` addresses bytes at
offsets at or beyond `len * stride`, outside the valid element region. -/
theorem C10_swap_unchecked (v : Vec) (p1 p2 : Nat) :
    (vec_swap v p1 p2).len = v.len ∧
    (vec_swap v p1 p2).size = v.size ∧
    (vec_swap v p1 p2).cap = v.cap ∧
    (p1 < v.len → p2 < v.len →
      elemAt (vec_swap v p1 p2) p1 = elemAt v p2 ∧
      elemAt (vec_swap v p1 p2) p2 = elemAt v p1 ∧
      ∀ q, q ≠ p1 → q ≠ p2 → elemAt (vec_swap v p1 p2) q = elemAt v q) ∧
    (∀ k, k < v.size → (vec_swap v p1 p2).mem (p2 * v.size + k) = v.mem (p1 * v.size + k)) ∧
    (p1 ≠ p2 → ∀ k, k < v.size →
      (vec_swap v p1 p2).mem (p1 * v.size + k) = v.mem (p2 * v.size + k)) ∧
    (∀ o, ¬ (p1 * v.size ≤ o ∧ o < p1 * v.size + v.size) →
      ¬ (p2 * v.size ≤ o ∧ o < p2 * v.size + v.size) →
      (vec_swap v p1 p2).mem o = v.mem o) ∧
    (v.len ≤ p2 → v.len * v.size ≤ p2 * v.size) := by
  refine ⟨rfl, rfl, rfl, ?_, ?_, ?_, ?_, ?_⟩
  · intro hp1 hp2
    refine ⟨?_, elemAt_swap_right v p1 p2,
      fun q hq1 hq2 => elemAt_swap_other v p1 p2 q hq1 hq2⟩
    by_cases hpe : p1 = p2
    · subst hpe
      exact elemAt_swap_right v p1 p1
    · exact elemAt_swap_left v p1 p2 hpe
  · intro k hk
    rw [vec_swap_mem, if_pos ⟨by omega, by omega⟩, Nat.add_sub_cancel_left]
  · intro hne k hk
    rw [vec_swap_mem,
      if_neg (elem_range_disjoint hne (by omega) (by omega)),
      if_pos ⟨by omega, by omega⟩, Nat.add_sub_cancel_left]
  · intro o ho1 ho2
    rw [vec_swap_mem, if_neg ho2, if_neg ho1]
  · intro h
    exact Nat.mul_le_mul_right _ h

/-- C10 witness: on a concrete 3-element vector, an in-bounds swap exchanges
the two elements, while a swap with position 5 ≥ length writes the byte of
element 0 at offset 5 — outside the valid region `[0, 3)` — actually changing
the memory there. -/
theorem C10_swap_unchecked_witness :
    (vec_swap exVec 0 5).mem (5 * exVec.size + 0) = exVec.mem (0 * exVec.size + 0) ∧
    exVec.len * exVec.size ≤ 5 * exVec.size ∧
    (vec_swap exVec 0 5).mem 5 ≠ exVec.mem 5 ∧
    elemAt (vec_swap exVec 0 2) 0 = elemAt exVec 2 :=
  ⟨(C10_swap_unchecked exVec 0 5).2.2.2.2.1 0 (by decide),
   (C10_swap_unchecked exVec 0 5).2.2.2.2.2.2.2 (by decide),
   by decide,
   ((C10_swap_unchecked exVec 0 2).2.2.2.1 (by decide) (by decide)).1⟩

/- ======================================================================== -/
/- memcmp as an order, equations for the sort loops                         -/
/- ======================================================================== -/

theorem memcmp_antisym : ∀ a b : List Nat, memcmp a b = - memcmp b a := by
  intro a
  induction a with
  | nil => intro b; cases b <;> simp [memcmp]
  | cons x as ih =>
    intro b
    cases b with
    | nil => simp [memcmp]
    | cons y bs =>
      simp only [memcmp]
      rcases Nat.lt_trichotomy x y with h | h | h
      · rw [if_pos h, if_neg (by omega), if_pos h]
      · rw [if_neg (by omega), if_neg (by omega), if_neg (by omega), if_neg (by omega)]
        exact ih bs
      · rw [if_neg (by omega), if_pos h, if_pos h]
        norm_num

theorem mc_trans_le : ∀ a b c : List Nat, memcmp a b ≤ 0 → memcmp b c ≤ 0 → memcmp a c ≤ 0 := by
  intro a
  induction a with
  | nil =>
    intro b c h1 h2
    cases c <;> norm_num [memcmp]
  | cons x as ih =>
    intro b c h1 h2
    cases b with
    | nil => exfalso; norm_num [memcmp] at h1
    | cons y bs =>
      cases c with
      | nil => exfalso; norm_num [memcmp] at h2
      | cons z cs =>
        simp only [memcmp] at h1 h2 ⊢
        split_ifs at h1 h2 ⊢ <;> first | omega | exact ih bs cs h1 h2

theorem cmp_flip (ord : Int) (a b : List Nat) (h : 0 < memcmp a b * ord) :
    memcmp b a * ord ≤ 0 := by
  rw [memcmp_antisym b a, neg_mul]
  omega

theorem cmp_le_trans (ord : Int) (hord : ord = 1 ∨ ord = -1) (a b c : List Nat)
    (h1 : memcmp a b * ord ≤ 0) (h2 : memcmp b c * ord ≤ 0) :
    memcmp a c * ord ≤ 0 := by
  rcases hord with h | h <;> subst h
  · rw [mul_one] at h1 h2 ⊢
    exact mc_trans_le a b c h1 h2
  · rw [mul_neg_one] at h1 h2 ⊢
    have hba : memcmp b a ≤ 0 := by rw [memcmp_antisym]; omega
    have hcb : memcmp c b ≤ 0 := by rw [memcmp_antisym]; omega
    have hca := mc_trans_le c b a hcb hba
    have hac : memcmp a c = - memcmp c a := memcmp_antisym a c
    omega

theorem sortInner_eq (ord : Int) (len i : Nat) (v : Vec) (j : Nat) :
    sortInner ord len i v j =
      if j < len then
        sortInner ord len i
          (if 0 < v_cmp v i (v_at v j) 1 * ord then vec_swap v i j else v) (j + 1)
      else v := by
  rw [sortInner]

theorem sortOuter_eq (ord : Int) (len : Nat) (v : Vec) (i : Nat) :
    sortOuter ord len v i =
      if i < len then sortOuter ord len (sortInner ord len i v (i + 1)) (i + 1) else v := by
  rw [sortOuter]

theorem v_cmp_elemAt (v : Vec) (i j : Nat) :
    v_cmp v i (v_at v j) 1 = memcmp (elemAt v i) (elemAt v j) := by
  unfold v_cmp elemAt v_at
  rw [Nat.one_mul]

/- ======================================================================== -/
/- Invariants of the sort loops                                             -/
/- ======================================================================== -/

theorem sortInner_spec (ord : Int) (hord : ord = 1 ∨ ord = -1) (n i : Nat) :
    ∀ (fuel j : Nat) (v : Vec), n - j = fuel → i < j →
    (∀ k, i < k → k < j → memcmp (elemAt v i) (elemAt v k) * ord ≤ 0) →
    (sortInner ord n i v j).size = v.size ∧
    (sortInner ord n i v j).len = v.len ∧
    (sortInner ord n i v j).cap = v.cap ∧
    (∀ p, p < j → p ≠ i → elemAt (sortInner ord n i v j) p = elemAt v p) ∧
    List.Perm
      (elemAt (sortInner ord n i v j) i ::
        (List.range' j (n - j)).map (elemAt (sortInner ord n i v j)))
      (elemAt v i :: (List.range' j (n - j)).map (elemAt v)) ∧
    (∀ k, i < k → k < n →
      memcmp (elemAt (sortInner ord n i v j) i)
        (elemAt (sortInner ord n i v j) k) * ord ≤ 0) := by
  intro fuel
  induction fuel with
  | zero =>
    intro j v hfuel hij hdom
    have hnj : ¬ j < n := by omega
    rw [sortInner_eq, if_neg hnj]
    refine ⟨rfl, rfl, rfl, fun p _ _ => rfl, List.Perm.refl _, ?_⟩
    intro k hik hkn
    exact hdom k hik (by omega)
  | succ fuel ih =>
    intro j v hfuel hij hdom
    have hjn : j < n := by omega
    rw [sortInner_eq, if_pos hjn]
    have hrange : List.range' j (n - j) = j :: List.range' (j + 1) (n - (j + 1)) := by
      rw [show n - j = (n - (j + 1)) + 1 from by omega, List.range'_succ]
    by_cases hc : 0 < v_cmp v i (v_at v j) 1 * ord
    · rw [if_pos hc]
      rw [v_cmp_elemAt] at hc
      have hine : i ≠ j := by omega
      have hvi : elemAt (vec_swap v i j) i = elemAt v j := elemAt_swap_left v i j hine
      have hvj : elemAt (vec_swap v i j) j = elemAt v i := elemAt_swap_right v i j
      have hvo : ∀ p, p ≠ i → p ≠ j → elemAt (vec_swap v i j) p = elemAt v p :=
        fun p h1 h2 => elemAt_swap_other v i j p h1 h2
      have hdom' : ∀ k, i < k → k < j + 1 →
          memcmp (elemAt (vec_swap v i j) i) (elemAt (vec_swap v i j) k) * ord ≤ 0 := by
        intro k hik hkj
        by_cases hkj' : k = j
        · subst hkj'
          rw [hvi, hvj]
          exact cmp_flip ord _ _ hc
        · have hki : k ≠ i := by omega
          rw [hvi, hvo k hki hkj']
          exact cmp_le_trans ord hord _ _ _ (cmp_flip ord _ _ hc) (hdom k hik (by omega))
      obtain ⟨S1, S2, S3, S4, S5, S6⟩ := ih (j + 1) (vec_swap v i j) (by omega) (by omega) hdom'
      refine ⟨S1, S2, S3, ?_, ?_, S6⟩
      · intro p hp hpi
        have hpj : p ≠ j := by omega
        rw [S4 p (by omega) hpi, hvo p hpi hpj]
      · rw [hrange]
        simp only [List.map_cons]
        have hWj : elemAt (sortInner ord n i (vec_swap v i j) (j + 1)) j = elemAt v i := by
          rw [S4 j (by omega) (by omega), hvj]
        rw [hWj]
        have hmap : (List.range' (j + 1) (n - (j + 1))).map (elemAt (vec_swap v i j)) =
            (List.range' (j + 1) (n - (j + 1))).map (elemAt v) := by
          apply List.map_congr_left
          intro p hp
          have hp' := List.mem_range'_1.mp hp
          exact hvo p (by omega) (by omega)
        have S5' := S5
        rw [hvi, hmap] at S5'
        exact List.Perm.trans (List.Perm.swap _ _ _) (List.Perm.cons _ S5')
    · rw [if_neg hc]
      rw [v_cmp_elemAt] at hc
      have hdom' : ∀ k, i < k → k < j + 1 →
          memcmp (elemAt v i) (elemAt v k) * ord ≤ 0 := by
        intro k hik hkj
        by_cases hkj' : k = j
        · subst hkj'
          omega
        · exact hdom k hik (by omega)
      obtain ⟨S1, S2, S3, S4, S5, S6⟩ := ih (j + 1) v (by omega) (by omega) hdom'
      refine ⟨S1, S2, S3, ?_, ?_, S6⟩
      · intro p hp hpi
        exact S4 p (by omega) hpi
      · rw [hrange]
        simp only [List.map_cons]
        have hWj : elemAt (sortInner ord n i v (j + 1)) j = elemAt v j :=
          S4 j (by omega) (by omega)
        rw [hWj]
        exact (List.Perm.swap _ _ _).trans ((List.Perm.cons _ S5).trans (List.Perm.swap _ _ _))

theorem sortOuter_spec (ord : Int) (hord : ord = 1 ∨ ord = -1) (n : Nat) :
    ∀ (fuel i : Nat) (v : Vec), n - i = fuel → i ≤ n →
    (∀ p q, p < q → q < i → memcmp (elemAt v p) (elemAt v q) * ord ≤ 0) →
    (∀ p, p < i → ∀ x ∈ (List.range' i (n - i)).map (elemAt v),
      memcmp (elemAt v p) x * ord ≤ 0) →
    (sortOuter ord n v i).size = v.size ∧
    (sortOuter ord n v i).len = v.len ∧
    (sortOuter ord n v i).cap = v.cap ∧
    (∀ p, p < i → elemAt (sortOuter ord n v i) p = elemAt v p) ∧
    List.Perm ((List.range' i (n - i)).map (elemAt (sortOuter ord n v i)))
      ((List.range' i (n - i)).map (elemAt v)) ∧
    (∀ p q, p < q → q < n →
      memcmp (elemAt (sortOuter ord n v i) p) (elemAt (sortOuter ord n v i) q) * ord ≤ 0) := by
  intro fuel
  induction fuel with
  | zero =>
    intro i v hfuel hin hpre1 hpre2
    have hni : ¬ i < n := by omega
    rw [sortOuter_eq, if_neg hni]
    refine ⟨rfl, rfl, rfl, fun p _ => rfl, List.Perm.refl _, ?_⟩
    intro p q hpq hqn
    exact hpre1 p q hpq (by omega)
  | succ fuel ih =>
    intro i v hfuel hin hpre1 hpre2
    have hin' : i < n := by omega
    rw [sortOuter_eq, if_pos hin']
    obtain ⟨I1, I2, I3, I4, I5, I6⟩ :=
      sortInner_spec ord hord n i (n - (i + 1)) (i + 1) v rfl (by omega)
        (fun k h1 h2 => absurd h2 (by omega))
    have hrange : List.range' i (n - i) = i :: List.range' (i + 1) (n - (i + 1)) := by
      rw [show n - i = (n - (i + 1)) + 1 from by omega, List.range'_succ]
    have hpre1' : ∀ p q, p < q → q < i + 1 →
        memcmp (elemAt (sortInner ord n i v (i + 1)) p)
          (elemAt (sortInner ord n i v (i + 1)) q) * ord ≤ 0 := by
      intro p q hpq hq
      by_cases hqi : q = i
      · rw [hqi, I4 p (by omega) (by omega)]
        have hmemW : elemAt (sortInner ord n i v (i + 1)) i ∈
            elemAt v i :: (List.range' (i + 1) (n - (i + 1))).map (elemAt v) :=
          I5.mem_iff.mp (List.mem_cons_self _ _)
        have hmem2 : elemAt (sortInner ord n i v (i + 1)) i ∈
            (List.range' i (n - i)).map (elemAt v) := by
          rw [hrange]
          simpa using hmemW
        exact hpre2 p (by omega) _ hmem2
      · have hq' : q < i := by omega
        rw [I4 p (by omega) (by omega), I4 q (by omega) (by omega)]
        exact hpre1 p q hpq hq'
    have hpre2' : ∀ p, p < i + 1 →
        ∀ x ∈ (List.range' (i + 1) (n - (i + 1))).map (elemAt (sortInner ord n i v (i + 1))),
        memcmp (elemAt (sortInner ord n i v (i + 1)) p) x * ord ≤ 0 := by
      intro p hp x hx
      by_cases hpi : p = i
      · rw [hpi]
        obtain ⟨k, hk, rfl⟩ := List.mem_map.mp hx
        have hk' := List.mem_range'_1.mp hk
        exact I6 k (by omega) (by omega)
      · rw [I4 p (by omega) hpi]
        have hmemW : x ∈ elemAt (sortInner ord n i v (i + 1)) i ::
            (List.range' (i + 1) (n - (i + 1))).map (elemAt (sortInner ord n i v (i + 1))) :=
          List.mem_cons_of_mem _ hx
        have hmemV : x ∈ elemAt v i :: (List.range' (i + 1) (n - (i + 1))).map (elemAt v) :=
          I5.mem_iff.mp hmemW
        have hmem2 : x ∈ (List.range' i (n - i)).map (elemAt v) := by
          rw [hrange]
          simpa using hmemV
        exact hpre2 p (by omega) x hmem2
    obtain ⟨O1, O2, O3, O4, O5, O6⟩ :=
      ih (i + 1) (sortInner ord n i v (i + 1)) (by omega) (by omega) hpre1' hpre2'
    refine ⟨O1.trans I1, O2.trans I2, O3.trans I3, ?_, ?_, O6⟩
    · intro p hp
      rw [O4 p (by omega), I4 p (by omega) (by omega)]
    · rw [hrange]
      simp only [List.map_cons]
      have hOi : elemAt (sortOuter ord n (sortInner ord n i v (i + 1)) (i + 1)) i =
          elemAt (sortInner ord n i v (i + 1)) i := O4 i (by omega)
      rw [hOi]
      exact (List.Perm.cons _ O5).trans I5

theorem sortInner_of_sorted (ord : Int) (n i : Nat) :
    ∀ (fuel j : Nat) (v : Vec), n - j = fuel → i < j →
    (∀ k, i < k → k < n → memcmp (elemAt v i) (elemAt v k) * ord ≤ 0) →
    sortInner ord n i v j = v := by
  intro fuel
  induction fuel with
  | zero =>
    intro j v hf hij hd
    rw [sortInner_eq, if_neg (by omega)]
  | succ fuel ih =>
    intro j v hf hij hd
    rw [sortInner_eq, if_pos (show j < n by omega)]
    have hc : ¬ 0 < v_cmp v i (v_at v j) 1 * ord := by
      rw [v_cmp_elemAt]
      have := hd j hij (by omega)
      omega
    rw [if_neg hc]
    exact ih (j + 1) v (by omega) (by omega) hd

theorem sortOuter_of_sorted (ord : Int) (n : Nat) :
    ∀ (fuel i : Nat) (v : Vec), n - i = fuel →
    (∀ p q, p < q → q < n → memcmp (elemAt v p) (elemAt v q) * ord ≤ 0) →
    sortOuter ord n v i = v := by
  intro fuel
  induction fuel with
  | zero =>
    intro i v hf hs
    rw [sortOuter_eq, if_neg (by omega)]
  | succ fuel ih =>
    intro i v hf hs
    rw [sortOuter_eq, if_pos (show i < n by omega)]
    rw [sortInner_of_sorted ord n i (n - (i + 1)) (i + 1) v rfl (by omega)
      (fun k h1 h2 => hs i k h1 h2)]
    exact ih (i + 1) v (by omega) hs

/-- C9: for every array, `vec_sort` with the ascending order value produces a
byte-content-nondecreasing permutation of the elements (pairwise, under
`memcmp` over one stride), with the descending value a nonincreasing one, and
applying the same sort to the result leaves it unchanged. -/
theorem C9_sort_props (v : Vec) (ord : Int)
    (hord : ord = VEC_SORT_ASC ∨ ord = VEC_SORT_DESC) :
    (vec_sort v ord).len = v.len ∧
    (vec_sort v ord).size = v.size ∧
    List.Perm ((List.range v.len).map (elemAt (vec_sort v ord)))
      ((List.range v.len).map (elemAt v)) ∧
    (ord = VEC_SORT_ASC → ∀ p q, p < q → q < v.len →
      memcmp (elemAt (vec_sort v ord) p) (elemAt (vec_sort v ord) q) ≤ 0) ∧
    (ord = VEC_SORT_DESC → ∀ p q, p < q → q < v.len →
      0 ≤ memcmp (elemAt (vec_sort v ord) p) (elemAt (vec_sort v ord) q)) ∧
    vec_sort (vec_sort v ord) ord = vec_sort v ord := by
  have hord' : ord = 1 ∨ ord = -1 := by
    rcases hord with h | h
    · exact Or.inl h
    · exact Or.inr h
  obtain ⟨O1, O2, O3, O4, O5, O6⟩ :=
    sortOuter_spec ord hord' v.len v.len 0 v (by omega) (by omega)
      (fun p q hpq hq => absurd hq (by omega))
      (fun p hp => absurd hp (by omega))
  have hlen : (vec_sort v ord).len = v.len := O2
  have hsize : (vec_sort v ord).size = v.size := O1
  refine ⟨hlen, hsize, ?_, ?_, ?_, ?_⟩
  · have hP := O5
    rw [Nat.sub_zero] at hP
    rw [List.range_eq_range']
    exact hP
  · intro h p q hpq hq
    rw [h]
    have h6 := O6 p q hpq hq
    rw [h] at h6
    have hone : VEC_SORT_ASC = (1 : Int) := rfl
    rw [hone, mul_one] at h6
    exact h6
  · intro h p q hpq hq
    rw [h]
    have h6 := O6 p q hpq hq
    rw [h] at h6
    have hone : VEC_SORT_DESC = (-1 : Int) := rfl
    rw [hone, mul_neg_one] at h6
    have h7 : 0 ≤ memcmp (elemAt (vec_sort v (-1)) p) (elemAt (vec_sort v (-1)) q) := by
      have h8 : memcmp (elemAt (vec_sort v (-1)) p) (elemAt (vec_sort v (-1)) q) =
          memcmp (elemAt (sortOuter (-1) v.len v 0) p) (elemAt (sortOuter (-1) v.len v 0) q) :=
        rfl
      omega
    exact h7
  · show sortOuter ord (vec_sort v ord).len (vec_sort v ord) 0 = vec_sort v ord
    rw [hlen]
    exact sortOuter_of_sorted ord v.len v.len 0 (vec_sort v ord) (by omega) O6

/-- C9 witness: sorting the concrete vector [3, 1, 2] ascending yields a
permutation of its elements and is idempotent. -/
theorem C9_sort_props_witness :
    vec_sort (vec_sort exVecU VEC_SORT_ASC) VEC_SORT_ASC = vec_sort exVecU VEC_SORT_ASC ∧
    List.Perm ((List.range exVecU.len).map (elemAt (vec_sort exVecU VEC_SORT_ASC)))
      ((List.range exVecU.len).map (elemAt exVecU)) :=
  ⟨(C9_sort_props exVecU VEC_SORT_ASC (Or.inl rfl)).2.2.2.2.2,
   (C9_sort_props exVecU VEC_SORT_ASC (Or.inl rfl)).2.2.1⟩
